import Mathlib

/-!
Shallow embedding of `src/generate_variants.py`.

Text is modelled as `List Char` (Python `str`).  The external
text-generation service (`utils.inference.generate_text`), the random
draws (`random.choice`, `random.sample`) and the clock
(`datetime.utcnow`) are the program's only impure inputs; they are
modelled by an environment `Env` indexed by the sequence number of the
generation call, so that one `Env` value determines one run of the
program.  A failing external call is an `Except.error`.

All definitions are structurally recursive, so the kernel can evaluate
them on concrete inputs.
-/

/-- Python `str`, modelled as its list of characters. -/
abbrev Str := List Char

/-- The whitespace class used by Python's `str.strip` and by `\s` in
`re` patterns (Unicode whitespace). -/
def pyWs (c : Char) : Bool :=
  c = ' ' || c = '\t' || c = '\n' || c = '\r' || c = '\x0b' || c = '\x0c' ||
  c = '\x1c' || c = '\x1d' || c = '\x1e' || c = '\x1f' || c = '\x85' || c = '\xa0' ||
  c = '\u1680' || ('\u2000' ≤ c && c ≤ '\u200a') || c = '\u2028' || c = '\u2029' ||
  c = '\u202f' || c = '\u205f' || c = '\u3000'

/-- The line-boundary characters of Python's `str.splitlines`. -/
def isLineBreak (c : Char) : Bool :=
  c = '\n' || c = '\r' || c = '\x0b' || c = '\x0c' || c = '\x1c' || c = '\x1d' ||
  c = '\x1e' || c = '\x85' || c = '\u2028' || c = '\u2029'

/-- Python `str.strip()`: remove leading and trailing whitespace. -/
def pyStrip (l : Str) : Str :=
  ((l.dropWhile pyWs).reverse.dropWhile pyWs).reverse

/-- Python `str.startswith(pat)` on character lists. -/
def listStartsWith : Str → Str → Bool
  | [], _ => true
  | _ :: _, [] => false
  | p :: ps, c :: cs => p == c && listStartsWith ps cs

/-- Python `pat in text` (substring containment). -/
def containsSub (pat : Str) : Str → Bool
  | [] => listStartsWith pat []
  | c :: rest => listStartsWith pat (c :: rest) || containsSub pat rest

/-- Index of the first occurrence of `pat` in the text, if any. -/
def firstOcc (pat : Str) : Str → Option Nat
  | [] => if listStartsWith pat [] then some 0 else none
  | c :: rest =>
    if listStartsWith pat (c :: rest) then some 0
    else (firstOcc pat rest).map (fun n => n + 1)

/-- Python `str.splitlines()` (auxiliary scanner; `acc` holds the
current line reversed).  `\r\n` counts as a single boundary and a
trailing boundary produces no extra empty line. -/
def splitlinesAux : Str → Str → List Str
  | acc, [] => if acc.isEmpty then [] else [acc.reverse]
  | acc, [c] => if isLineBreak c then [acc.reverse] else [(c :: acc).reverse]
  | acc, c :: b :: rest =>
    if c = '\r' && b = '\n' then acc.reverse :: splitlinesAux [] rest
    else if isLineBreak c then acc.reverse :: splitlinesAux [] (b :: rest)
    else splitlinesAux (c :: acc) (b :: rest)

/-- Python `text.splitlines()`. -/
def pySplitlines (l : Str) : List Str := splitlinesAux [] l

/-- `re.split(r"====\s*", text)` as a left-to-right scanner
(line 104 of the source).  The flag records whether we are inside the
greedy `\s*` tail of a just-matched delimiter; `acc` holds the current
block reversed.  A `====` match is checked before the flag so that
whitespace followed by another `====` extends the delimiter exactly as
the regex does. -/
def splitEqAux : Bool → Str → Str → List Str
  | _, acc, '=' :: '=' :: '=' :: '=' :: rest => acc.reverse :: splitEqAux true [] rest
  | _, acc, [] => [acc.reverse]
  | true, acc, c :: rest =>
    if pyWs c then splitEqAux true acc rest else splitEqAux false (c :: acc) rest
  | false, acc, c :: rest => splitEqAux false (c :: acc) rest

/-- `re.split(r"====\s*", text)`. -/
def pySplitDelim (l : Str) : List Str := splitEqAux false [] l

/-- One parsed `{reasoning, variant}` pair (lines 102-117). -/
structure RawVariant where
  reasoning : Str
  variant : Str
deriving DecidableEq, Repr

/-- The literal `"Reasoning:"`. -/
def reasoningMarker : Str := "Reasoning:".data

/-- The literal `"Variant:"`. -/
def variantMarker : Str := "Variant:".data

/-- `re.search(r"Reasoning:\s*(.*?)\s*Variant:", block, re.DOTALL)`,
returning the text standing between the matched `Reasoning:` and the
following `Variant:` (the regex group together with the whitespace
absorbed by the two `\s*`, which the caller strips away anyway).
The scanner tries each start position from the left; a start position
matches when `Reasoning:` begins there and some `Variant:` occurrence
begins at or after the end of that `Reasoning:` (the lazy group then
stops at the first such occurrence). -/
def reasoningCapture : Str → Option Str
  | [] => none
  | c :: rest =>
    if listStartsWith reasoningMarker (c :: rest) then
      match firstOcc variantMarker ((c :: rest).drop 10) with
      | some j => some (((c :: rest).drop 10).take j)
      | none => reasoningCapture rest
    else reasoningCapture rest

/-- The inner loop of lines 110-114: first line of the block whose
stripped form starts with `Variant:`, returning the stripped remainder
of that line. -/
def findVariantLine : List Str → Option Str
  | [] => none
  | line :: rest =>
    if listStartsWith variantMarker (pyStrip line) then
      some (pyStrip ((pyStrip line).drop 8))
    else findVariantLine rest

/-- The body of the block loop of `parse_variants` (lines 105-116):
zero or one parsed pair per block. -/
def parseBlock (block : Str) : List RawVariant :=
  if containsSub variantMarker block && containsSub reasoningMarker block then
    match findVariantLine (pySplitlines block) with
    | some v =>
      if v.isEmpty then []
      else [{ reasoning := ((reasoningCapture block).map pyStrip).getD [], variant := v }]
    | none => []
  else []

/-- `parse_variants` (lines 102-117): split the response on `====`
delimiters and collect the pair extracted from each block. -/
def parse_variants (text : Str) : List RawVariant :=
  (pySplitDelim text).flatMap parseBlock

/-- The dict handed to `process_single_variant` (the parser's output
enriched at line 133); `variant`/`reasoning`/`transformations_used`
are looked up with `dict.get`, hence optional. -/
structure VariantData where
  variant : Option Str
  reasoning : Option Str
  transformations_used : Option (List Str)
deriving DecidableEq, Repr

/-- A Variant Record (the dict built at lines 143-151). -/
structure VariantRecord where
  original : Str
  requested_difficulty : Str
  variant : Str
  reasoning : Option Str
  transformations_used : List Str
  evaluation : Option Str
  timestamp : Str
deriving DecidableEq, Repr

/-- `process_single_variant` (lines 139-151).  `now` is the value of
`datetime.utcnow().isoformat()` at the moment of the call. -/
def process_single_variant (original_prompt difficulty : Str) (variant_data : VariantData)
    (now : Str) : Option VariantRecord :=
  match variant_data.variant with
  | none => none
  | some v =>
    if v.isEmpty then none
    else some {
      original := original_prompt
      requested_difficulty := difficulty
      variant := v
      reasoning := variant_data.reasoning
      transformations_used := variant_data.transformations_used.getD []
      evaluation := none
      timestamp := now ++ "Z".data }

/-- Python `str.lower()` (ASCII case folding, as in the keys in use). -/
def pyLower (l : Str) : Str := l.map Char.toLower

/-- `TRANSFORMATIONS_BY_DIFFICULTY` (lines 21-42) as a keyed lookup. -/
def TRANSFORMATIONS_BY_DIFFICULTY (key : Str) : Option (List Str) :=
  if key = "easier".data then
    some ["simplify the language".data, "reduce the complexity".data,
          "remove unnecessary details".data, "simplify the instructions".data]
  else if key = "equivalent".data then
    some ["make minor adjustments".data, "change wording slightly".data,
          "rephrase without altering meaning".data, "substitute synonyms".data]
  else if key = "harder".data then
    some ["add additional details".data, "increase complexity".data,
          "introduce more technical language".data, "expand the prompt".data,
          "add challenging constraints".data]
  else none

/-- Line 121: `TRANSFORMATIONS_BY_DIFFICULTY.get(difficulty.lower(),
["make a small change"])`. -/
def transformations_pool (difficulty : Str) : List Str :=
  (TRANSFORMATIONS_BY_DIFFICULTY (pyLower difficulty)).getD ["make a small change".data]

/-- Line 123: the second argument of `random.sample`, namely
`min(num_choices, len(transformations))`. -/
def sample_size (difficulty : Str) (num_choices : Nat) : Nat :=
  min num_choices (transformations_pool difficulty).length

/-- The impure inputs of one run, indexed by the sequence number of the
generation call: the value drawn by `random.choice(range(3, 7))`, the
draw of `random.sample` (given the population and the sample size), the
reply of the external generation service (or its failure), and the
clock reading for each record built inside the call. -/
structure Env where
  numChoices : Nat → Nat
  sample : Nat → List Str → Nat → List Str
  response : Nat → Except Str Str
  now : Nat → Nat → Str

/-- `generate_variant_chunk` (lines 120-136).  The composed instruction
string and the sampled temperature only shape the request to the
external service, whose reply `env.response` already determines; a
service failure propagates as the error of the whole chunk. -/
def generate_variant_chunk (env : Env) (call : Nat) (prompt difficulty : Str)
    (count : Nat) : Except Str (List VariantRecord) :=
  let transformations := transformations_pool difficulty
  let chosen_transforms :=
    env.sample call transformations (sample_size difficulty (env.numChoices call))
  match env.response call with
  | .error e => .error e
  | .ok response_text =>
    let parsed_variants := parse_variants response_text
    .ok (parsed_variants.enum.filterMap (fun iv =>
      process_single_variant prompt difficulty
        { variant := some iv.2.variant, reasoning := some iv.2.reasoning,
          transformations_used := some chosen_transforms }
        (env.now call iv.1)))

/-- Lines 161-164: `total_to_request` split into `ceil(total/10)`
chunks of ten, the final chunk taking the remainder. -/
def chunk_counts (total_to_request : Nat) : List Nat :=
  let num_chunks := (total_to_request + 9) / 10
  (List.range num_chunks).map (fun i =>
    if i < num_chunks - 1 then 10 else total_to_request - 10 * (num_chunks - 1))

/-- Lines 160-165: the task list of one orchestration call, one
`(difficulty, count)` entry per chunk, difficulties in input order,
with `total_to_request = num_variants * 3` (`buffer_multiplier = 3`). -/
def chunk_tasks (difficulties : List Str) (num_variants : Nat) : List (Str × Nat) :=
  difficulties.flatMap (fun d => (chunk_counts (num_variants * 3)).map (fun k => (d, k)))

/-- Line 167: `asyncio.gather` over the chunk coroutines.  Results are
joined in submission order; the first failing call aborts the batch
(fail-fast, `return_exceptions` left at its default).  The counter `c`
numbers the generation calls. -/
def run_chunks (env : Env) (prompt : Str) :
    List (Str × Nat) → Nat → Except Str (List (Str × List VariantRecord))
  | [], _ => .ok []
  | t :: rest, c =>
    match generate_variant_chunk env c prompt t.1 t.2 with
    | .error e => .error e
    | .ok recs =>
      match run_chunks env prompt rest (c + 1) with
      | .error e => .error e
      | .ok tl => .ok ((t.1, recs) :: tl)

/-- Lines 170-174, inner loop: fold one chunk's records into the seen
set and the per-difficulty buckets.  A record is kept when its variant
text is non-empty and not in the seen set. -/
def merge_one : List Str → (Str → List VariantRecord) → Str → List VariantRecord →
    List Str × (Str → List VariantRecord)
  | seen, B, _, [] => (seen, B)
  | seen, B, d, v :: vs =>
    if v.variant ≠ [] ∧ v.variant ∉ seen then
      merge_one (v.variant :: seen) (fun x => if x = d then B x ++ [v] else B x) d vs
    else merge_one seen B d vs

/-- Lines 169-174, outer loop: fold the collected chunk outputs (in
submission order, each tagged with its difficulty) into the buckets. -/
def merge_fold : List Str → (Str → List VariantRecord) →
    List (Str × List VariantRecord) → Str → List VariantRecord
  | _, B, [] => B
  | seen, B, t :: rest =>
    merge_fold (merge_one seen B t.1 t.2).1 (merge_one seen B t.1 t.2).2 rest

/-- The per-difficulty buckets after the merge of lines 168-174,
starting from the empty seen set and empty buckets. -/
def merge_chunks (rs : List (Str × List VariantRecord)) : Str → List VariantRecord :=
  merge_fold [] (fun _ => []) rs

/-- Lines 155-177 of `process_prompt`: issue all chunks, merge with the
global seen set, truncate each bucket to `num_variants`, concatenate in
difficulty order.  Also returns the next free call number. -/
def process_top (env : Env) (bp : Str) (ds : List Str) (nv c0 : Nat) :
    Except Str (List VariantRecord × Nat) :=
  match run_chunks env bp (chunk_tasks ds nv) c0 with
  | .error e => .error e
  | .ok rs =>
    .ok (ds.flatMap (fun d => ((merge_chunks rs) d).take nv),
         c0 + (chunk_tasks ds nv).length)

/-- Lines 180-186, loop body: process the retained variants one after
the other with the given child runner `f` (sequential `await` in the
source), concatenating the child result lists in parent order. -/
def run_children (f : Str → Nat → Except Str (List VariantRecord × Nat)) :
    List VariantRecord → Nat → Except Str (List VariantRecord × Nat)
  | [], c => .ok ([], c)
  | v :: vs, c =>
    match f v.variant c with
    | .error e => .error e
    | .ok sub =>
      match run_children f vs sub.2 with
      | .error e => .error e
      | .ok rest => .ok (sub.1 ++ rest.1, rest.2)

/-- `process_prompt` (lines 154-188), by recursion on
`recursion_depth`: the top-level phase, then, when the depth is
positive, one recursive call per retained record with depth one less,
the recursive results appended after the top-level ones.  Defined with
`Nat.rec` so that it reduces definitionally. -/
def process_prompt (env : Env) (recursion_depth : Nat) (base_prompt : Str)
    (difficulties : List Str) (num_variants : Nat) (c0 : Nat) :
    Except Str (List VariantRecord × Nat) :=
  Nat.rec (motive := fun _ => Str → List Str → Nat → Nat →
      Except Str (List VariantRecord × Nat))
    (fun bp ds nv c => process_top env bp ds nv c)
    (fun _ ih bp ds nv c =>
      match process_top env bp ds nv c with
      | .error e => .error e
      | .ok pr =>
        match run_children (fun p c2 => ih p ds nv c2) pr.1 pr.2 with
        | .error e => .error e
        | .ok qr => .ok (pr.1 ++ qr.1, qr.2))
    recursion_depth base_prompt difficulties num_variants c0

/-- The run of the children loop (lines 180-186) as a relation: the
child runner `f` is invoked once per parent record, in parent order,
threading the call counter, and `ps` collects the child result lists in
that order. -/
inductive ChildrenRun (f : Str → Nat → Except Str (List VariantRecord × Nat)) :
    List VariantRecord → Nat → List (List VariantRecord) → Nat → Prop
  | nil (c : Nat) : ChildrenRun f [] c [] c
  | cons (v : VariantRecord) (vs : List VariantRecord) (c c1 c2 : Nat)
      (sub : List VariantRecord) (ps : List (List VariantRecord))
      (hv : f v.variant c = .ok (sub, c1)) (hs : ChildrenRun f vs c1 ps c2) :
      ChildrenRun f (v :: vs) c (sub :: ps) c2

/-- A concrete environment whose service reply always parses to the
single variant `x`: every generation call yields one record. -/
def testEnv : Env where
  numChoices := fun _ => 3
  sample := fun _ _ _ => []
  response := fun _ => .ok "====\nReasoning: r\nVariant: x\n====".data
  now := fun _ _ => "T".data

/-- A concrete environment whose external service always fails. -/
def failEnv : Env where
  numChoices := fun _ => 3
  sample := fun _ _ _ => []
  response := fun _ => .error "boom".data
  now := fun _ _ => []

/-- The single record produced by one `testEnv` generation call for
difficulty `easier` on base prompt `p`. -/
def testRecord : VariantRecord where
  original := "p".data
  requested_difficulty := "easier".data
  variant := "x".data
  reasoning := some "r".data
  transformations_used := []
  evaluation := none
  timestamp := "TZ".data

/-! ## Unfolding equations and general-purpose lemmas -/

theorem process_prompt_zero (env : Env) (bp : Str) (ds : List Str) (nv c : Nat) :
    process_prompt env 0 bp ds nv c = process_top env bp ds nv c := rfl

theorem process_prompt_succ (env : Env) (d : Nat) (bp : Str) (ds : List Str) (nv c : Nat) :
    process_prompt env (d + 1) bp ds nv c =
      match process_top env bp ds nv c with
      | .error e => .error e
      | .ok pr =>
        match run_children (fun p c2 => process_prompt env d p ds nv c2) pr.1 pr.2 with
        | .error e => .error e
        | .ok qr => .ok (pr.1 ++ qr.1, qr.2) := rfl

theorem isEmpty_false_of_ne_nil {l : Str} (h : l ≠ []) : l.isEmpty = false := by
  cases l with
  | nil => exact absurd rfl h
  | cons c cs => rfl

/-! ## Chunk sizing (lines 160-165) -/

theorem range_map_chunk (n rem : Nat) (hn : 1 ≤ n) :
    (List.range n).map (fun i => if i < n - 1 then 10 else rem) =
      List.replicate (n - 1) 10 ++ [rem] := by
  obtain ⟨m, rfl⟩ : ∃ m, n = m + 1 := ⟨n - 1, by omega⟩
  rw [List.range_succ, List.map_append]
  have h2 : ∀ b ∈ (List.range m).map (fun i => if i < m + 1 - 1 then 10 else rem),
      b = 10 := by
    intro b hb
    obtain ⟨i, hi, rfl⟩ := List.mem_map.mp hb
    have him : i < m := List.mem_range.mp hi
    simp only [if_pos (show i < m + 1 - 1 by omega)]
  have h3 := List.eq_replicate_of_mem h2
  rw [List.length_map, List.length_range] at h3
  rw [h3]
  simp only [List.map_cons, List.map_nil,
    if_neg (show ¬ m < m + 1 - 1 by omega)]
  simp

theorem chunk_counts_char (t : Nat) (ht : 1 ≤ t) :
    chunk_counts t = List.replicate ((t + 9) / 10 - 1) 10 ++ [t - 10 * ((t + 9) / 10 - 1)] := by
  unfold chunk_counts
  exact range_map_chunk _ _ (by omega)

theorem chunk_counts_sum (t : Nat) : (chunk_counts t).sum = t := by
  rcases Nat.eq_zero_or_pos t with h0 | h1
  · subst h0; rfl
  · rw [chunk_counts_char t h1, List.sum_append, List.sum_replicate]
    have hd : 10 * ((t + 9) / 10 - 1) ≤ t := by omega
    simp only [smul_eq_mul, List.sum_cons, List.sum_nil]
    omega

theorem chunk_counts_le (t : Nat) : ∀ k ∈ chunk_counts t, k ≤ 10 := by
  intro k hk
  rcases Nat.eq_zero_or_pos t with h0 | h1
  · subst h0; simp [chunk_counts] at hk
  · rw [chunk_counts_char t h1] at hk
    rcases List.mem_append.mp hk with h | h
    · rw [List.eq_of_mem_replicate h]
    · rw [List.mem_singleton.mp h]; omega

/-- C5: for every difficulty the orchestrator requests
`num_variants * 3` variants in total, split into chunks of at most ten
with the final chunk taking the remainder; a total of `9` yields one
chunk of size `9` and a total of `25` yields chunks `10, 10, 5`. -/
theorem C5_claim (nv : Nat) (ds : List Str) :
    chunk_tasks ds nv =
      ds.flatMap (fun d => (chunk_counts (nv * 3)).map (fun k => (d, k))) ∧
    (chunk_counts (nv * 3)).sum = nv * 3 ∧
    (∀ k ∈ chunk_counts (nv * 3), k ≤ 10) ∧
    chunk_counts 9 = [9] ∧
    chunk_counts 25 = [10, 10, 5] :=
  ⟨rfl, chunk_counts_sum _, chunk_counts_le _, by decide, by decide⟩

/-! ## The Response Parser on the spec's concrete example -/

/-- C4: parsing the exact text
`"====\nVariant 1:\nReasoning: foo\nVariant: bar\n===="` returns the
single pair `{reasoning: "foo", variant: "bar"}`. -/
theorem C4_claim :
    parse_variants "====\nVariant 1:\nReasoning: foo\nVariant: bar\n====".data =
      [{ reasoning := "foo".data, variant := "bar".data }] := by decide

/-! ## The Variant Record Builder (lines 139-151) -/

/-- C7: `process_single_variant` returns nothing when the variant text
is missing or empty, and otherwise a record copying its inputs, with
the empty evaluation placeholder and the clock reading suffixed by
`"Z"` as timestamp. -/
theorem C7_claim (op d : Str) (vd : VariantData) (now : Str) :
    ((vd.variant = none ∨ vd.variant = some []) →
      process_single_variant op d vd now = none) ∧
    (∀ v, vd.variant = some v → v ≠ [] →
      process_single_variant op d vd now = some {
        original := op
        requested_difficulty := d
        variant := v
        reasoning := vd.reasoning
        transformations_used := vd.transformations_used.getD []
        evaluation := none
        timestamp := now ++ "Z".data }) := by
  constructor
  · rintro (h | h) <;> simp [process_single_variant, h]
  · intro v hv hne
    simp [process_single_variant, hv, isEmpty_false_of_ne_nil hne]

/-- Witness for C7 at a concrete input. -/
theorem C7_witness :
    process_single_variant "a".data "easier".data
      { variant := some "x".data, reasoning := some "r".data,
        transformations_used := some [] } "T".data =
    some { original := "a".data, requested_difficulty := "easier".data,
           variant := "x".data, reasoning := some "r".data,
           transformations_used := [], evaluation := none,
           timestamp := "T".data ++ "Z".data } :=
  (C7_claim "a".data "easier".data
    { variant := some "x".data, reasoning := some "r".data,
      transformations_used := some [] } "T".data).2 "x".data rfl (by decide)

/-! ## Transformation pools (lines 21-42, 120-124) -/

/-- C9: an unknown difficulty label (compared after lowercasing) falls
back to the default pool `["make a small change"]`, which is non-empty,
and for every difficulty the sample size `min(num_choices, len(pool))`
never exceeds the pool size — in particular when the pool is smaller
than the drawn `num_choices` the sample is capped at the pool size, so
`random.sample` never fails. -/
theorem C9_claim (d : Str) (n : Nat)
    (h : pyLower d ≠ "easier".data ∧ pyLower d ≠ "equivalent".data ∧
         pyLower d ≠ "harder".data) :
    transformations_pool d = ["make a small change".data] ∧
    transformations_pool d ≠ [] ∧
    sample_size d n ≤ (transformations_pool d).length ∧
    (∀ d2 : Str, ∀ m : Nat, (transformations_pool d2).length < m →
      sample_size d2 m = (transformations_pool d2).length) := by
  have hp : transformations_pool d = ["make a small change".data] := by
    unfold transformations_pool TRANSFORMATIONS_BY_DIFFICULTY
    rw [if_neg h.1, if_neg h.2.1, if_neg h.2.2]
    rfl
  refine ⟨hp, by rw [hp]; simp, ?_, ?_⟩
  · unfold sample_size; omega
  · intro d2 m hm; unfold sample_size; omega

/-- Witness for C9 at the unknown label `"weird"` with draw 6. -/
theorem C9_witness :
    (pyLower "weird".data ≠ "easier".data ∧
     pyLower "weird".data ≠ "equivalent".data ∧
     pyLower "weird".data ≠ "harder".data) ∧
    (transformations_pool "weird".data = ["make a small change".data] ∧
     transformations_pool "weird".data ≠ [] ∧
     sample_size "weird".data 6 ≤ (transformations_pool "weird".data).length ∧
     (∀ d2 : Str, ∀ m : Nat, (transformations_pool d2).length < m →
       sample_size d2 m = (transformations_pool d2).length)) :=
  ⟨by decide, C9_claim "weird".data 6 (by decide)⟩

/-! ## C3: blocks with both markers (lines 102-117) -/

/-- C3 counterexample: the block `"Reasoning: foo\nVariant:\n"` of
this input contains both markers, yet parsing yields no pair at all
(the text after `Variant:` on its line is empty), refuting the claim
that such a block always yields exactly one pair. -/
theorem C3_counterexample :
    "Reasoning: foo\nVariant:\n".data ∈
        pySplitDelim "====\nReasoning: foo\nVariant:\n====".data ∧
    containsSub variantMarker "Reasoning: foo\nVariant:\n".data = true ∧
    containsSub reasoningMarker "Reasoning: foo\nVariant:\n".data = true ∧
    parse_variants "====\nReasoning: foo\nVariant:\n====".data = [] := by decide

/-- C3 as amended: a `====`-delimited block missing either marker
yields no pair; a block with both markers yields at most one pair, and
exactly one precisely when some line of the block, once stripped,
starts with `Variant:` and the first such line carries non-empty text
after the marker. -/
theorem C3_amended (text block : Str) (_hb : block ∈ pySplitDelim text) :
    parse_variants text = (pySplitDelim text).flatMap parseBlock ∧
    ((containsSub variantMarker block && containsSub reasoningMarker block) = false →
      parseBlock block = []) ∧
    (parseBlock block).length ≤ 1 ∧
    ((containsSub variantMarker block && containsSub reasoningMarker block) = true →
      ((parseBlock block).length = 1 ↔
        ∃ v, findVariantLine (pySplitlines block) = some v ∧ v ≠ [])) := by
  refine ⟨rfl, ?_, ?_, ?_⟩
  · intro h
    simp [parseBlock, h]
  · unfold parseBlock
    split
    · split
      · split <;> simp
      · simp
    · simp
  · intro h
    unfold parseBlock
    rw [h]
    simp only [if_true]
    cases hfv : findVariantLine (pySplitlines block) with
    | none => simp
    | some v =>
      cases hv : v.isEmpty with
      | true =>
        have : v = [] := List.isEmpty_iff.mp hv
        subst this
        simp
      | false =>
        have : v ≠ [] := by
          intro he
          subst he
          exact absurd hv (by decide)
        simp [hv, this]

/-- Witness for C3 at a concrete well-formed block. -/
theorem C3_witness :
    "Reasoning: foo\nVariant: bar\n".data ∈
        pySplitDelim "====\nReasoning: foo\nVariant: bar\n====".data ∧
    (parseBlock "Reasoning: foo\nVariant: bar\n".data).length = 1 :=
  ⟨by decide,
   ((C3_amended "====\nReasoning: foo\nVariant: bar\n====".data
      "Reasoning: foo\nVariant: bar\n".data (by decide)).2.2.2 (by decide)).mpr
    ⟨"bar".data, by decide, by decide⟩⟩

/-! ## C8: failure of the external service (lines 120-136, 167) -/

theorem run_chunks_error (env : Env) (bp : Str) :
    ∀ (tasks : List (Str × Nat)) (c : Nat),
      (∃ k, k < tasks.length ∧ ∃ msg, env.response (c + k) = .error msg) →
      ∃ e, run_chunks env bp tasks c = .error e := by
  intro tasks
  induction tasks with
  | nil =>
    intro c h
    obtain ⟨k, hk, _⟩ := h
    exact absurd hk (by simp)
  | cons t rest ih =>
    intro c h
    obtain ⟨k, hk, msg, hmsg⟩ := h
    cases hr : env.response c with
    | error e =>
      refine ⟨e, ?_⟩
      simp [run_chunks, generate_variant_chunk, hr]
    | ok txt =>
      have hk0 : k ≠ 0 := by
        intro h0
        subst h0
        rw [Nat.add_zero] at hmsg
        rw [hr] at hmsg
        exact Except.noConfusion hmsg
      obtain ⟨k2, rfl⟩ : ∃ k2, k = k2 + 1 := ⟨k - 1, by omega⟩
      obtain ⟨e, he⟩ := ih (c + 1) ⟨k2, by simpa using hk, msg, by
        rw [show c + 1 + k2 = c + (k2 + 1) by omega]; exact hmsg⟩
      refine ⟨e, ?_⟩
      simp [run_chunks, generate_variant_chunk, hr, he]

/-- C8: if the external generation call of any chunk of the top-level
gather fails, the error is caught nowhere: the whole orchestration call
returns that failure and no partial result list, at every recursion
depth. -/
theorem C8_claim (env : Env) (depth : Nat) (bp : Str) (ds : List Str) (nv c0 : Nat)
    (h : ∃ k, k < (chunk_tasks ds nv).length ∧
      ∃ msg, env.response (c0 + k) = .error msg) :
    ∃ e, process_prompt env depth bp ds nv c0 = .error e := by
  obtain ⟨e, he⟩ := run_chunks_error env bp (chunk_tasks ds nv) c0 h
  have htop : process_top env bp ds nv c0 = .error e := by
    simp [process_top, he]
  cases depth with
  | zero => exact ⟨e, by rw [process_prompt_zero, htop]⟩
  | succ d => exact ⟨e, by rw [process_prompt_succ, htop]⟩

/-- Witness for C8: with an always-failing service, the orchestration
run aborts with an error. -/
theorem C8_witness :
    (∃ k, k < (chunk_tasks ["easier".data] 1).length ∧
      ∃ msg, failEnv.response (0 + k) = .error msg) ∧
    (∃ e, process_prompt failEnv 0 "p".data ["easier".data] 1 0 = .error e) :=
  ⟨⟨0, by decide, "boom".data, rfl⟩,
   C8_claim failEnv 0 "p".data ["easier".data] 1 0
     ⟨0, by decide, "boom".data, rfl⟩⟩

/-! ## Merge invariants (lines 168-177) -/

theorem merge_one_sub :
    ∀ (recs : List VariantRecord) (seen : List Str) (B : Str → List VariantRecord)
      (d x : Str),
    ∃ s : List VariantRecord, s.Sublist recs ∧
      (merge_one seen B d recs).2 x = B x ++ s ∧ (x ≠ d → s = []) := by
  intro recs
  induction recs with
  | nil =>
    intro seen B d x
    exact ⟨[], List.Sublist.refl _, by simp [merge_one], fun _ => rfl⟩
  | cons v vs ih =>
    intro seen B d x
    unfold merge_one
    split
    · obtain ⟨s, hs, he, hne⟩ :=
        ih (v.variant :: seen) (fun y => if y = d then B y ++ [v] else B y) d x
      by_cases hxd : x = d
      · subst hxd
        refine ⟨v :: s, List.Sublist.cons₂ v hs, ?_, fun hx => absurd rfl hx⟩
        rw [he, if_pos rfl, List.append_assoc]
        rfl
      · refine ⟨[], List.nil_sublist _, ?_, fun _ => rfl⟩
        rw [he, if_neg hxd, hne hxd]
    · obtain ⟨s, hs, he, hne⟩ := ih seen B d x
      exact ⟨s, hs.cons v, he, hne⟩

theorem merge_fold_sub :
    ∀ (rs : List (Str × List VariantRecord)) (seen : List Str)
      (B : Str → List VariantRecord) (x : Str),
    ∃ s : List VariantRecord,
      s.Sublist ((rs.filter (fun p => decide (p.1 = x))).flatMap Prod.snd) ∧
      merge_fold seen B rs x = B x ++ s := by
  intro rs
  induction rs with
  | nil =>
    intro seen B x
    exact ⟨[], by simp, by simp [merge_fold]⟩
  | cons t rest ih =>
    intro seen B x
    obtain ⟨s1, hs1, he1, hne1⟩ := merge_one_sub t.2 seen B t.1 x
    obtain ⟨s2, hs2, he2⟩ := ih (merge_one seen B t.1 t.2).1 (merge_one seen B t.1 t.2).2 x
    by_cases hx : t.1 = x
    · refine ⟨s1 ++ s2, ?_, ?_⟩
      · rw [List.filter_cons_of_pos (by simpa using hx), List.flatMap_cons]
        exact List.Sublist.append hs1 hs2
      · rw [show merge_fold seen B (t :: rest) x =
            merge_fold (merge_one seen B t.1 t.2).1 (merge_one seen B t.1 t.2).2 rest x
            from rfl, he2, he1, List.append_assoc]
    · refine ⟨s2, ?_, ?_⟩
      · rw [List.filter_cons_of_neg (by simpa using hx)]
        exact hs2
      · rw [show merge_fold seen B (t :: rest) x =
            merge_fold (merge_one seen B t.1 t.2).1 (merge_one seen B t.1 t.2).2 rest x
            from rfl, he2, he1, hne1 (fun h => hx h.symm), List.append_nil]

theorem merge_one_inv :
    ∀ (recs : List VariantRecord) (seen : List Str) (B : Str → List VariantRecord)
      (d : Str),
    (∀ x r, r ∈ B x → r.variant ∈ seen) →
    (∀ x, ((B x).map VariantRecord.variant).Nodup) →
    (∀ x y, x ≠ y → ∀ r ∈ B x, ∀ q ∈ B y, r.variant ≠ q.variant) →
    ((∀ x r, r ∈ (merge_one seen B d recs).2 x → r.variant ∈ (merge_one seen B d recs).1) ∧
     (∀ x, (((merge_one seen B d recs).2 x).map VariantRecord.variant).Nodup) ∧
     (∀ x y, x ≠ y → ∀ r ∈ (merge_one seen B d recs).2 x,
        ∀ q ∈ (merge_one seen B d recs).2 y, r.variant ≠ q.variant)) := by
  intro recs
  induction recs with
  | nil => intro seen B d hA hB hC; exact ⟨hA, hB, hC⟩
  | cons v vs ih =>
    intro seen B d hA hB hC
    unfold merge_one
    split
    · rename_i hkeep
      apply ih (v.variant :: seen) (fun y => if y = d then B y ++ [v] else B y) d
      · intro x r hr
        by_cases hxd : x = d
        · rw [if_pos hxd] at hr
          rcases List.mem_append.mp hr with h | h
          · exact List.mem_cons_of_mem _ (hA x r h)
          · rw [List.mem_singleton.mp h]
            exact List.mem_cons_self _ _
        · rw [if_neg hxd] at hr
          exact List.mem_cons_of_mem _ (hA x r hr)
      · intro x
        by_cases hxd : x = d
        · rw [if_pos hxd, List.map_append]
          rw [List.nodup_append]
          refine ⟨hB x, by simp, ?_⟩
          intro a ha ha2
          obtain ⟨r, hr, rfl⟩ := List.mem_map.mp ha
          have : r.variant ∈ seen := hA x r hr
          simp only [List.map_cons, List.map_nil, List.mem_singleton] at ha2
          rw [ha2] at this
          exact hkeep.2 this
        · rw [if_neg hxd]; exact hB x
      · intro x y hxy r hr q hq
        by_cases hxd : x = d <;> by_cases hyd : y = d
        · exact absurd (hxd.trans hyd.symm) hxy
        · rw [if_pos hxd] at hr
          rw [if_neg hyd] at hq
          rcases List.mem_append.mp hr with h | h
          · exact hC x y hxy r h q hq
          · rw [List.mem_singleton.mp h]
            intro hvq
            exact hkeep.2 (hvq ▸ hA y q hq)
        · rw [if_neg hxd] at hr
          rw [if_pos hyd] at hq
          rcases List.mem_append.mp hq with h | h
          · exact hC x y hxy r hr q h
          · rw [List.mem_singleton.mp h]
            intro hvq
            exact hkeep.2 (hvq ▸ hA x r hr)
        · rw [if_neg hxd] at hr
          rw [if_neg hyd] at hq
          exact hC x y hxy r hr q hq
    · exact ih seen B d hA hB hC

theorem merge_fold_inv :
    ∀ (rs : List (Str × List VariantRecord)) (seen : List Str)
      (B : Str → List VariantRecord),
    (∀ x r, r ∈ B x → r.variant ∈ seen) →
    (∀ x, ((B x).map VariantRecord.variant).Nodup) →
    (∀ x y, x ≠ y → ∀ r ∈ B x, ∀ q ∈ B y, r.variant ≠ q.variant) →
    ((∀ x, ((merge_fold seen B rs x).map VariantRecord.variant).Nodup) ∧
     (∀ x y, x ≠ y → ∀ r ∈ merge_fold seen B rs x, ∀ q ∈ merge_fold seen B rs y,
        r.variant ≠ q.variant)) := by
  intro rs
  induction rs with
  | nil =>
    intro seen B hA hB hC
    exact ⟨hB, hC⟩
  | cons t rest ih =>
    intro seen B hA hB hC
    obtain ⟨hA2, hB2, hC2⟩ := merge_one_inv t.2 seen B t.1 hA hB hC
    exact ih (merge_one seen B t.1 t.2).1 (merge_one seen B t.1 t.2).2 hA2 hB2 hC2

theorem merge_chunks_inv (rs : List (Str × List VariantRecord)) :
    (∀ x, ((merge_chunks rs x).map VariantRecord.variant).Nodup) ∧
    (∀ x y, x ≠ y → ∀ r ∈ merge_chunks rs x, ∀ q ∈ merge_chunks rs y,
       r.variant ≠ q.variant) :=
  merge_fold_inv rs [] (fun _ => []) (by simp) (by simp) (by simp)

theorem process_top_ok (env : Env) (bp : Str) (ds : List Str) (nv c0 : Nat)
    (L : List VariantRecord) (c1 : Nat) (h : process_top env bp ds nv c0 = .ok (L, c1)) :
    ∃ rs, run_chunks env bp (chunk_tasks ds nv) c0 = .ok rs ∧
      L = ds.flatMap (fun d => ((merge_chunks rs) d).take nv) ∧
      c1 = c0 + (chunk_tasks ds nv).length := by
  unfold process_top at h
  cases hr : run_chunks env bp (chunk_tasks ds nv) c0 with
  | error e => rw [hr] at h; exact Except.noConfusion h
  | ok rs =>
    rw [hr] at h
    simp only [Except.ok.injEq, Prod.mk.injEq] at h
    exact ⟨rs, rfl, h.1.symm, h.2.symm⟩

theorem flatMap_take_nodup :
    ∀ (ds : List Str) (B : Str → List VariantRecord) (nv : Nat),
    ds.Nodup →
    (∀ x, ((B x).map VariantRecord.variant).Nodup) →
    (∀ x y, x ≠ y → ∀ r ∈ B x, ∀ q ∈ B y, r.variant ≠ q.variant) →
    ((ds.flatMap (fun x => (B x).take nv)).map VariantRecord.variant).Nodup := by
  intro ds
  induction ds with
  | nil => intro B nv _ _ _; simp
  | cons d rest ih =>
    intro B nv hnd hB hC
    rw [List.flatMap_cons, List.map_append, List.nodup_append]
    obtain ⟨hdm, hnd2⟩ := List.nodup_cons.mp hnd
    refine ⟨((List.take_sublist nv (B d)).map VariantRecord.variant).nodup (hB d),
      ih B nv hnd2 hB hC, ?_⟩
    intro a ha ha2
    obtain ⟨r, hr, rfl⟩ := List.mem_map.mp ha
    have hrB : r ∈ B d := List.take_subset nv (B d) hr
    obtain ⟨q, hq, hqv⟩ := List.mem_map.mp ha2
    obtain ⟨y, hy, hqy⟩ := List.mem_flatMap.mp hq
    have hqB : q ∈ B y := List.take_subset nv (B y) hqy
    have hdy : d ≠ y := fun hh => hdm (hh ▸ hy)
    exact hC d y hdy r hrB q hqB hqv.symm

/-! ## C1: global uniqueness of variant texts -/

/-- C1 counterexample: with recursion depth 1 the returned flat list
holds two records with the same variant text `"x"` — the recursive
sub-call builds a fresh seen-set (line 156), so deduplication is per
orchestration call, not across the whole run. -/
theorem C1_counterexample :
    (process_prompt testEnv 1 "p".data ["easier".data] 1 0).toOption.map
        (fun q => q.1.map VariantRecord.variant) = some ["x".data, "x".data] ∧
    ¬ (["x".data, "x".data] : List Str).Nodup :=
  ⟨rfl, by decide⟩

/-- C1 as amended: within one orchestration call on a duplicate-free
difficulty list with recursion depth 0 (the top-level phase of any
run), no two returned Variant Records share identical variant text;
the seen-set is shared across difficulties within that call. -/
theorem C1_amended (env : Env) (bp : Str) (ds : List Str) (nv c0 : Nat)
    (L : List VariantRecord) (c1 : Nat) (hnd : ds.Nodup)
    (h : process_prompt env 0 bp ds nv c0 = .ok (L, c1)) :
    (L.map VariantRecord.variant).Nodup := by
  rw [process_prompt_zero] at h
  obtain ⟨rs, _, hL, _⟩ := process_top_ok env bp ds nv c0 L c1 h
  subst hL
  exact flatMap_take_nodup ds (merge_chunks rs) nv hnd
    (merge_chunks_inv rs).1 (merge_chunks_inv rs).2

/-- Witness for C1 at a concrete environment. -/
theorem C1_witness :
    (["easier".data] : List Str).Nodup ∧
    process_prompt testEnv 0 "p".data ["easier".data] 1 0 = .ok ([testRecord], 1) ∧
    (([testRecord] : List VariantRecord).map VariantRecord.variant).Nodup :=
  ⟨by decide, by rfl,
   C1_amended testEnv "p".data ["easier".data] 1 0 [testRecord] 1 (by decide) (by rfl)⟩

/-! ## C2: per-difficulty count bound -/

theorem chunk_records_tag (env : Env) (call : Nat) (prompt difficulty : Str)
    (count : Nat) (recs : List VariantRecord)
    (h : generate_variant_chunk env call prompt difficulty count = .ok recs) :
    ∀ r ∈ recs, r.requested_difficulty = difficulty := by
  unfold generate_variant_chunk at h
  cases hr : env.response call with
  | error e => rw [hr] at h; exact Except.noConfusion h
  | ok txt =>
    rw [hr] at h
    simp only [Except.ok.injEq] at h
    subst h
    intro r hr2
    obtain ⟨iv, _, hps⟩ := List.mem_filterMap.mp hr2
    unfold process_single_variant at hps
    simp only at hps
    split at hps
    · exact Option.noConfusion hps
    · obtain rfl := Option.some.injEq .. ▸ hps
      injection hps with hrec
      rw [hrec.symm]

theorem run_chunks_tag (env : Env) (bp : Str) :
    ∀ (tasks : List (Str × Nat)) (c : Nat) (rs : List (Str × List VariantRecord)),
    run_chunks env bp tasks c = .ok rs →
    ∀ p ∈ rs, ∀ r ∈ p.2, r.requested_difficulty = p.1 := by
  intro tasks
  induction tasks with
  | nil =>
    intro c rs h
    simp only [run_chunks, Except.ok.injEq] at h
    subst h
    simp
  | cons t rest ih =>
    intro c rs h
    unfold run_chunks at h
    cases hg : generate_variant_chunk env c bp t.1 t.2 with
    | error e => rw [hg] at h; exact Except.noConfusion h
    | ok recs =>
      rw [hg] at h
      cases hr2 : run_chunks env bp rest (c + 1) with
      | error e => rw [hr2] at h; exact Except.noConfusion h
      | ok tl =>
        rw [hr2] at h
        simp only [Except.ok.injEq] at h
        subst h
        intro p hp r hrp
        rcases List.mem_cons.mp hp with hp1 | hp1
        · subst hp1
          exact chunk_records_tag env c bp t.1 t.2 recs hg r hrp
        · exact ih (c + 1) tl hr2 p hp1 r hrp

theorem merge_one_tag :
    ∀ (recs : List VariantRecord) (seen : List Str) (B : Str → List VariantRecord)
      (d : Str),
    (∀ x r, r ∈ B x → r.requested_difficulty = x) →
    (∀ r ∈ recs, r.requested_difficulty = d) →
    ∀ x r, r ∈ (merge_one seen B d recs).2 x → r.requested_difficulty = x := by
  intro recs
  induction recs with
  | nil => intro seen B d hB _; exact hB
  | cons v vs ih =>
    intro seen B d hB hrecs
    unfold merge_one
    split
    · apply ih (v.variant :: seen) (fun y => if y = d then B y ++ [v] else B y) d
      · intro x r hr
        by_cases hxd : x = d
        · rw [if_pos hxd] at hr
          rcases List.mem_append.mp hr with h | h
          · exact hB x r h
          · rw [List.mem_singleton.mp h, hxd]
            exact hrecs v (List.mem_cons_self v vs)
        · rw [if_neg hxd] at hr
          exact hB x r hr
      · intro r hr
        exact hrecs r (List.mem_cons_of_mem v hr)
    · exact ih seen B d hB (fun r hr => hrecs r (List.mem_cons_of_mem v hr))

theorem merge_fold_tag :
    ∀ (rs : List (Str × List VariantRecord)) (seen : List Str)
      (B : Str → List VariantRecord),
    (∀ x r, r ∈ B x → r.requested_difficulty = x) →
    (∀ p ∈ rs, ∀ r ∈ p.2, r.requested_difficulty = p.1) →
    ∀ x r, r ∈ merge_fold seen B rs x → r.requested_difficulty = x := by
  intro rs
  induction rs with
  | nil => intro seen B hB _; exact hB
  | cons t rest ih =>
    intro seen B hB hrs
    apply ih (merge_one seen B t.1 t.2).1 (merge_one seen B t.1 t.2).2
    · exact merge_one_tag t.2 seen B t.1 hB
        (fun r hr => hrs t (List.mem_cons_self t rest) r hr)
    · intro p hp r hr
      exact hrs p (List.mem_cons_of_mem t hp) r hr

theorem countP_flatMap_take :
    ∀ (ds : List Str) (B : Str → List VariantRecord) (nv : Nat) (d : Str),
    ds.Nodup →
    (∀ x r, r ∈ B x → r.requested_difficulty = x) →
    (ds.flatMap (fun x => (B x).take nv)).countP
        (fun r => decide (r.requested_difficulty = d)) ≤ nv := by
  intro ds
  induction ds with
  | nil => intro B nv d _ _; simp
  | cons a rest ih =>
    intro B nv d hnd htag
    rw [List.flatMap_cons, List.countP_append]
    obtain ⟨ham, hnd2⟩ := List.nodup_cons.mp hnd
    by_cases had : a = d
    · subst had
      have h1 : ((B a).take nv).countP (fun r => decide (r.requested_difficulty = a)) ≤ nv := by
        calc ((B a).take nv).countP (fun r => decide (r.requested_difficulty = a))
            ≤ ((B a).take nv).length := List.countP_le_length _
          _ ≤ nv := by rw [List.length_take]; omega
      have h2 : (rest.flatMap (fun x => (B x).take nv)).countP
          (fun r => decide (r.requested_difficulty = a)) = 0 := by
        rw [List.countP_eq_zero]
        intro r hr
        obtain ⟨y, hy, hry⟩ := List.mem_flatMap.mp hr
        have : r.requested_difficulty = y := htag y r (List.take_subset nv (B y) hry)
        simp only [decide_eq_true_eq, this]
        exact fun hh => ham (hh ▸ hy)
      omega
    · have h1 : ((B a).take nv).countP (fun r => decide (r.requested_difficulty = d)) = 0 := by
        rw [List.countP_eq_zero]
        intro r hr
        have : r.requested_difficulty = a := htag a r (List.take_subset nv (B a) hr)
        simp only [decide_eq_true_eq, this]
        exact had
      have h2 := ih B nv d hnd2 htag
      omega

/-- C2 counterexample: with recursion depth 1 and one desired variant
per difficulty, the returned flat list holds two records requested at
difficulty `easier` — the recursive sub-call re-applies the cap to its
own results only, so the bound holds per orchestration call, not over
the flat list of a recursive run. -/
theorem C2_counterexample :
    (process_prompt testEnv 1 "p".data ["easier".data] 1 0).toOption.map
        (fun q => q.1.countP (fun r => decide (r.requested_difficulty = "easier".data)))
      = some 2 ∧ 1 < 2 :=
  ⟨rfl, by omega⟩

/-- C2 as amended: within one orchestration call on a duplicate-free
difficulty list with recursion depth 0 (the top-level phase of any
run), at most `num_variants` returned records carry any given requested
difficulty. -/
theorem C2_amended (env : Env) (bp : Str) (ds : List Str) (nv c0 : Nat)
    (L : List VariantRecord) (c1 : Nat) (hnd : ds.Nodup)
    (h : process_prompt env 0 bp ds nv c0 = .ok (L, c1)) (d : Str) :
    L.countP (fun r => decide (r.requested_difficulty = d)) ≤ nv := by
  rw [process_prompt_zero] at h
  obtain ⟨rs, hrs, hL, _⟩ := process_top_ok env bp ds nv c0 L c1 h
  subst hL
  exact countP_flatMap_take ds (merge_chunks rs) nv d hnd
    (merge_fold_tag rs [] (fun _ => []) (by simp)
      (run_chunks_tag env bp (chunk_tasks ds nv) c0 rs hrs))

/-- Witness for C2 at a concrete environment. -/
theorem C2_witness :
    (["easier".data] : List Str).Nodup ∧
    process_prompt testEnv 0 "p".data ["easier".data] 1 0 = .ok ([testRecord], 1) ∧
    ([testRecord] : List VariantRecord).countP
      (fun r => decide (r.requested_difficulty = "easier".data)) ≤ 1 :=
  ⟨by decide, by rfl,
   C2_amended testEnv "p".data ["easier".data] 1 0 [testRecord] 1 (by decide) (by rfl)
     "easier".data⟩

/-! ## C6: ordering of the returned flat list -/

theorem run_children_sound (f : Str → Nat → Except Str (List VariantRecord × Nat)) :
    ∀ (vs : List VariantRecord) (c : Nat) (R : List VariantRecord) (c2 : Nat),
    run_children f vs c = .ok (R, c2) →
    ∃ ps, ChildrenRun f vs c ps c2 ∧ R = ps.flatten := by
  intro vs
  induction vs with
  | nil =>
    intro c R c2 h
    simp only [run_children, Except.ok.injEq, Prod.mk.injEq] at h
    obtain ⟨h1, h2⟩ := h
    subst h1
    subst h2
    exact ⟨[], ChildrenRun.nil c, rfl⟩
  | cons v vs ih =>
    intro c R c2 h
    unfold run_children at h
    split at h
    · exact Except.noConfusion h
    · rename_i q hf
      split at h
      · exact Except.noConfusion h
      · rename_i w hrc
        simp only [Except.ok.injEq, Prod.mk.injEq] at h
        obtain ⟨hR, hc⟩ := h
        obtain ⟨ps, hcr, hflat⟩ := ih q.2 w.1 w.2 (by rw [hrc])
        refine ⟨q.1 :: ps, ?_, ?_⟩
        · exact ChildrenRun.cons v vs c q.2 c2 q.1 ps hf (hc ▸ hcr)
        · rw [← hR, hflat]
          rfl

/-- C6: every successful orchestration run returns the top-level
records first — the buckets in input difficulty order, each bucket (in
acceptance order, a sublist of its difficulty's chunk outputs in
chunk-submission order) truncated to `num_variants` — followed by the
flattened recursive results, produced by one child call per top-level
record in the order those records appear. -/
theorem C6_claim (env : Env) (depth : Nat) (bp : Str) (ds : List Str) (nv c0 : Nat)
    (L : List VariantRecord) (c2 : Nat)
    (h : process_prompt env depth bp ds nv c0 = .ok (L, c2)) :
    ∃ rs ps,
      run_chunks env bp (chunk_tasks ds nv) c0 = .ok rs ∧
      (∀ x, (merge_chunks rs x).Sublist
        ((rs.filter (fun p => decide (p.1 = x))).flatMap Prod.snd)) ∧
      (depth = 0 → ps = ([] : List (List VariantRecord)) ∧
        c2 = c0 + (chunk_tasks ds nv).length) ∧
      (∀ d2, depth = d2 + 1 →
        ChildrenRun (fun p c => process_prompt env d2 p ds nv c)
          (ds.flatMap (fun x => (merge_chunks rs x).take nv))
          (c0 + (chunk_tasks ds nv).length) ps c2) ∧
      L = ds.flatMap (fun x => (merge_chunks rs x).take nv) ++ ps.flatten := by
  have hsub : ∀ rs : List (Str × List VariantRecord), ∀ x : Str,
      (merge_chunks rs x).Sublist
        ((rs.filter (fun p => decide (p.1 = x))).flatMap Prod.snd) := by
    intro rs x
    obtain ⟨s, hs, he⟩ := merge_fold_sub rs [] (fun _ => []) x
    have : merge_chunks rs x = s := by
      rw [show merge_chunks rs x = merge_fold [] (fun _ => []) rs x from rfl, he]
      rfl
    rw [this]
    exact hs
  cases depth with
  | zero =>
    rw [process_prompt_zero] at h
    obtain ⟨rs, hrs, hL, hc⟩ := process_top_ok env bp ds nv c0 L c2 h
    refine ⟨rs, [], hrs, hsub rs, fun _ => ⟨rfl, hc⟩,
      fun d2 hd => absurd hd (by omega), ?_⟩
    rw [hL]
    simp
  | succ d2 =>
    rw [process_prompt_succ] at h
    split at h
    · exact Except.noConfusion h
    · rename_i pr htop
      split at h
      · exact Except.noConfusion h
      · rename_i qr hrc
        simp only [Except.ok.injEq, Prod.mk.injEq] at h
        obtain ⟨hL, hc2⟩ := h
        obtain ⟨rs, hrs, hpr1, hpr2⟩ := process_top_ok env bp ds nv c0 pr.1 pr.2 (by rw [htop])
        obtain ⟨ps, hcr, hflat⟩ :=
          run_children_sound (fun p c => process_prompt env d2 p ds nv c) pr.1 pr.2 qr.1 qr.2
            (by rw [hrc])
        refine ⟨rs, ps, hrs, hsub rs, fun h0 => absurd h0 (by omega), ?_, ?_⟩
        · intro d3 hd3
          obtain rfl : d2 = d3 := by omega
          rw [← hpr1, ← hpr2]
          exact hc2 ▸ hcr
        · rw [← hL, hpr1, hflat]

/-- Witness for C6: the depth-1 run of the concrete environment,
returning the top-level record and then its recursive child. -/
theorem C6_witness :
    process_prompt testEnv 1 "p".data ["easier".data] 1 0 =
      .ok ([testRecord,
            { original := "x".data, requested_difficulty := "easier".data,
              variant := "x".data, reasoning := some "r".data,
              transformations_used := [], evaluation := none,
              timestamp := "TZ".data }], 2) ∧
    (∃ rs ps,
      run_chunks testEnv "p".data (chunk_tasks ["easier".data] 1) 0 = .ok rs ∧
      (∀ x, (merge_chunks rs x).Sublist
        ((rs.filter (fun p => decide (p.1 = x))).flatMap Prod.snd)) ∧
      ((1 : Nat) = 0 → ps = ([] : List (List VariantRecord)) ∧
        (2 : Nat) = 0 + (chunk_tasks ["easier".data] 1).length) ∧
      (∀ d2, (1 : Nat) = d2 + 1 →
        ChildrenRun (fun p c => process_prompt testEnv d2 p ["easier".data] 1 c)
          ((["easier".data] : List Str).flatMap
            (fun x => (merge_chunks rs x).take 1))
          (0 + (chunk_tasks ["easier".data] 1).length) ps 2) ∧
      [testRecord,
       { original := "x".data, requested_difficulty := "easier".data,
         variant := "x".data, reasoning := some "r".data,
         transformations_used := [], evaluation := none,
         timestamp := "TZ".data }] =
        (["easier".data] : List Str).flatMap (fun x => (merge_chunks rs x).take 1) ++
          ps.flatten) :=
  ⟨by rfl,
   C6_claim testEnv 1 "p".data ["easier".data] 1 0
     [testRecord,
      { original := "x".data, requested_difficulty := "easier".data,
        variant := "x".data, reasoning := some "r".data,
        transformations_used := [], evaluation := none,
        timestamp := "TZ".data }] 2 (by rfl)⟩

/-! ## String lemmas for the parser (C10) -/

theorem dropWhile_head_not (p : Char → Bool) :
    ∀ (l : Str) (h : Char), (l.dropWhile p).head? = some h → p h = false := by
  intro l
  induction l with
  | nil => intro h hh; simp [List.dropWhile] at hh
  | cons c cs ih =>
    intro h hh
    rw [List.dropWhile_cons] at hh
    by_cases hc : p c
    · rw [if_pos hc] at hh
      exact ih h hh
    · rw [if_neg hc] at hh
      simp only [List.head?_cons, Option.some.injEq] at hh
      subst hh
      revert hc
      cases p c <;> simp

theorem dropWhile_eq_self_of_head (p : Char → Bool) (l : Str)
    (h : ∀ a, l.head? = some a → p a = false) : l.dropWhile p = l := by
  cases l with
  | nil => rfl
  | cons c cs =>
    have hc := h c rfl
    rw [List.dropWhile_cons, if_neg (by simp [hc])]

theorem dropWhile_suffix_aux (p : Char → Bool) (l : Str) :
    ∃ s, s ++ l.dropWhile p = l := by
  induction l with
  | nil => exact ⟨[], rfl⟩
  | cons c cs ih =>
    rw [List.dropWhile_cons]
    by_cases hc : p c
    · rw [if_pos hc]
      obtain ⟨s, hs⟩ := ih
      exact ⟨c :: s, by rw [List.cons_append, hs]⟩
    · rw [if_neg hc]
      exact ⟨[], rfl⟩

theorem getLast_append_ne (s t : Str) (h : t ≠ []) :
    (s ++ t).getLast? = t.getLast? := by
  rw [← List.head?_reverse, ← List.head?_reverse, List.reverse_append]
  cases hr : t.reverse with
  | nil => exact absurd (by simpa using hr) h
  | cons a r => simp

theorem pyStrip_getLast (l : Str) (h : Char) :
    (pyStrip l).getLast? = some h → pyWs h = false := by
  unfold pyStrip
  rw [List.getLast?_reverse]
  exact dropWhile_head_not pyWs _ h

theorem pyStrip_head (l : Str) (h : Char) :
    (pyStrip l).head? = some h → pyWs h = false := by
  unfold pyStrip
  intro hh
  rw [List.head?_reverse] at hh
  obtain ⟨s, hs⟩ := dropWhile_suffix_aux pyWs ((l.dropWhile pyWs).reverse)
  cases hz : (l.dropWhile pyWs).reverse.dropWhile pyWs with
  | nil => rw [hz] at hh; exact Option.noConfusion hh
  | cons a r =>
    have hne : (l.dropWhile pyWs).reverse.dropWhile pyWs ≠ [] := by
      rw [hz]; simp
    have h2 : ((l.dropWhile pyWs).reverse).getLast? = some h := by
      rw [← hs, getLast_append_ne s _ hne]
      exact hh
    rw [List.getLast?_reverse] at h2
    exact dropWhile_head_not pyWs l h h2

theorem pyStrip_idem (l : Str) : pyStrip (pyStrip l) = pyStrip l := by
  have h1 : (pyStrip l).dropWhile pyWs = pyStrip l :=
    dropWhile_eq_self_of_head pyWs _ (fun a ha => pyStrip_head l a ha)
  show (((pyStrip l).dropWhile pyWs).reverse.dropWhile pyWs).reverse = pyStrip l
  rw [h1]
  have h2 : (pyStrip l).reverse.dropWhile pyWs = (pyStrip l).reverse := by
    apply dropWhile_eq_self_of_head
    intro a ha
    rw [List.head?_reverse] at ha
    exact pyStrip_getLast l a ha
  rw [h2, List.reverse_reverse]

theorem pyStrip_subset (l : Str) : ∀ c ∈ pyStrip l, c ∈ l := by
  intro c hc
  unfold pyStrip at hc
  rw [List.mem_reverse] at hc
  have hc2 := (List.dropWhile_sublist pyWs).subset hc
  rw [List.mem_reverse] at hc2
  exact (List.dropWhile_sublist pyWs).subset hc2

theorem splitlines_no_break :
    ∀ (acc l : Str),
    (∀ c ∈ acc, isLineBreak c = false) →
    ∀ line ∈ splitlinesAux acc l, ∀ c ∈ line, isLineBreak c = false := by
  intro acc l
  induction acc, l using splitlinesAux.induct with
  | case1 acc hemp =>
    intro hacc line hline c hc
    rw [splitlinesAux.eq_1, if_pos hemp] at hline
    simp at hline
  | case2 acc hemp =>
    intro hacc line hline c hc
    rw [splitlinesAux.eq_1, if_neg hemp, List.mem_singleton] at hline
    subst hline
    exact hacc c (List.mem_reverse.mp hc)
  | case3 acc c0 hbr =>
    intro hacc line hline c hc
    rw [splitlinesAux.eq_2, if_pos hbr, List.mem_singleton] at hline
    subst hline
    exact hacc c (List.mem_reverse.mp hc)
  | case4 acc c0 hbr =>
    intro hacc line hline c hc
    rw [splitlinesAux.eq_2, if_neg hbr, List.mem_singleton] at hline
    subst hline
    rw [List.mem_reverse] at hc
    rcases List.mem_cons.mp hc with h | h
    · subst h
      revert hbr
      cases isLineBreak c <;> simp
    · exact hacc c h
  | case5 acc c0 b rest hrn ih =>
    intro hacc line hline c hc
    rw [splitlinesAux.eq_3, if_pos hrn] at hline
    rcases List.mem_cons.mp hline with h | h
    · subst h
      exact hacc c (List.mem_reverse.mp hc)
    · exact ih (by simp) line h c hc
  | case6 acc c0 b rest hrn hbr ih =>
    intro hacc line hline c hc
    rw [splitlinesAux.eq_3, if_neg hrn, if_pos hbr] at hline
    rcases List.mem_cons.mp hline with h | h
    · subst h
      exact hacc c (List.mem_reverse.mp hc)
    · exact ih (by simp) line h c hc
  | case7 acc c0 b rest hrn hbr ih =>
    intro hacc line hline c hc
    rw [splitlinesAux.eq_3, if_neg hrn, if_neg hbr] at hline
    refine ih ?_ line hline c hc
    intro c2 hc2
    rcases List.mem_cons.mp hc2 with h | h
    · subst h
      revert hbr
      cases isLineBreak c2 <;> simp
    · exact hacc c2 h

theorem pySplitlines_no_break (l : Str) :
    ∀ line ∈ pySplitlines l, ∀ c ∈ line, isLineBreak c = false :=
  splitlines_no_break [] l (by simp)

theorem findVariantLine_some :
    ∀ (lines : List Str) (v : Str), findVariantLine lines = some v →
    ∃ line ∈ lines, listStartsWith variantMarker (pyStrip line) = true ∧
      v = pyStrip ((pyStrip line).drop 8) := by
  intro lines
  induction lines with
  | nil => intro v h; exact Option.noConfusion h
  | cons line rest ih =>
    intro v h
    unfold findVariantLine at h
    split at h
    · rename_i hsw
      injection h with h2
      exact ⟨line, List.mem_cons_self line rest, hsw, h2.symm⟩
    · obtain ⟨l2, hl2, hsw, hv⟩ := ih v h
      exact ⟨l2, List.mem_cons_of_mem line hl2, hsw, hv⟩

theorem parseBlock_mem (block : Str) (p : RawVariant) (hp : p ∈ parseBlock block) :
    (containsSub variantMarker block && containsSub reasoningMarker block) = true ∧
    ∃ v, findVariantLine (pySplitlines block) = some v ∧ v ≠ [] ∧
      p = { reasoning := ((reasoningCapture block).map pyStrip).getD [], variant := v } := by
  unfold parseBlock at hp
  split at hp
  · rename_i hcond
    split at hp
    · rename_i v hfv
      split at hp
      · simp at hp
      · rename_i hne
        rw [List.mem_singleton] at hp
        refine ⟨hcond, v, hfv, ?_, hp⟩
        intro hv
        subst hv
        simp at hne
    · simp at hp
  · simp at hp

theorem firstOcc_none_all (pat : Str) :
    ∀ (l : Str), firstOcc pat l = none →
    ∀ j, listStartsWith pat (l.drop j) = false := by
  intro l
  induction l with
  | nil =>
    intro h j
    unfold firstOcc at h
    split at h
    · exact Option.noConfusion h
    · rename_i hsw
      rw [List.drop_nil]
      revert hsw
      cases listStartsWith pat [] <;> simp
  | cons c rest ih =>
    intro h j
    unfold firstOcc at h
    split at h
    · exact Option.noConfusion h
    · rename_i hsw
      have h2 : firstOcc pat rest = none := by
        cases hf : firstOcc pat rest with
        | none => rfl
        | some n => rw [hf] at h; simp at h
      cases j with
      | zero =>
        rw [List.drop_zero]
        revert hsw
        cases listStartsWith pat (c :: rest) <;> simp
      | succ j2 =>
        rw [List.drop_succ_cons]
        exact ih h2 j2

theorem firstOcc_none_of_all (pat : Str) :
    ∀ (l : Str), (∀ j, listStartsWith pat (l.drop j) = false) →
    firstOcc pat l = none := by
  intro l
  induction l with
  | nil =>
    intro H
    have h0 := H 0
    rw [List.drop_nil] at h0
    unfold firstOcc
    rw [if_neg (by simp [h0])]
  | cons c rest ih =>
    intro H
    have h0 := H 0
    rw [List.drop_zero] at h0
    unfold firstOcc
    rw [if_neg (by simp [h0]),
      ih (fun j => by have hj := H (j + 1); rwa [List.drop_succ_cons] at hj)]
    rfl

theorem firstOcc_min (pat : Str) :
    ∀ (l : Str) (i : Nat), firstOcc pat l = some i →
    ∀ j, listStartsWith pat (l.drop j) = true → i ≤ j := by
  intro l
  induction l with
  | nil =>
    intro i h j hj
    unfold firstOcc at h
    split at h
    · injection h with h2
      omega
    · exact Option.noConfusion h
  | cons c rest ih =>
    intro i h j hj
    unfold firstOcc at h
    split at h
    · injection h with h2
      omega
    · rename_i hsw
      obtain ⟨i2, hf2, rfl⟩ : ∃ i2, firstOcc pat rest = some i2 ∧ i = i2 + 1 := by
        cases hf : firstOcc pat rest with
        | none => rw [hf] at h; simp at h
        | some n =>
          rw [hf] at h
          simp only [Option.map_some', Option.some.injEq] at h
          exact ⟨n, rfl, h.symm⟩
      cases j with
      | zero =>
        rw [List.drop_zero] at hj
        exact absurd hj hsw
      | succ j2 =>
        rw [List.drop_succ_cons] at hj
        have := ih i2 hf2 j2 hj
        omega

theorem reasoningCapture_none :
    ∀ (t : Str),
    (∀ j, listStartsWith reasoningMarker (t.drop j) = true →
      firstOcc variantMarker ((t.drop j).drop 10) = none) →
    reasoningCapture t = none := by
  intro t
  induction t with
  | nil => intro _; rfl
  | cons c rest ih =>
    intro H
    unfold reasoningCapture
    by_cases hsw : listStartsWith reasoningMarker (c :: rest) = true
    · rw [if_pos hsw]
      have h0 := H 0 (by rwa [List.drop_zero])
      rw [List.drop_zero] at h0
      rw [h0]
      exact ih (fun j hj => by
        have hh := H (j + 1) (by rwa [List.drop_succ_cons])
        rwa [List.drop_succ_cons] at hh)
    · rw [if_neg hsw]
      exact ih (fun j hj => by
        have hh := H (j + 1) (by rwa [List.drop_succ_cons])
        rwa [List.drop_succ_cons] at hh)

/-- C10: every pair returned by the parser has a non-empty variant
string that contains no newline and carries no leading or trailing
whitespace (it is the stripped tail of the first `Variant:` line of
its block); the reasoning string is empty whenever no `Variant:`
occurrence follows the first `Reasoning:` occurrence of the block. -/
theorem C10_claim (text : Str) (p : RawVariant) (hp : p ∈ parse_variants text) :
    (p.variant ≠ [] ∧ '\n' ∉ p.variant ∧ pyStrip p.variant = p.variant) ∧
    (∀ (block : Str) (i : Nat), block ∈ pySplitDelim text → p ∈ parseBlock block →
      firstOcc reasoningMarker block = some i →
      firstOcc variantMarker (block.drop (i + 10)) = none →
      p.reasoning = []) := by
  unfold parse_variants at hp
  constructor
  · obtain ⟨block, hb, hpb⟩ := List.mem_flatMap.mp hp
    obtain ⟨hcond, v, hfv, hvne, hpe⟩ := parseBlock_mem block p hpb
    obtain ⟨line, hline, hsw, hveq⟩ := findVariantLine_some (pySplitlines block) v hfv
    have hvar : p.variant = v := by rw [hpe]
    rw [hvar, hveq]
    refine ⟨by rw [← hveq]; exact hvne, ?_, pyStrip_idem _⟩
    intro hmem
    have h1 := pyStrip_subset _ _ hmem
    have h2 := List.drop_subset 8 _ h1
    have h3 := pyStrip_subset _ _ h2
    have h4 := pySplitlines_no_break block line hline '\n' h3
    exact absurd h4 (by decide)
  · intro block i hb hpb hfo hno
    obtain ⟨hcond, v, hfv, hvne, hpe⟩ := parseBlock_mem block p hpb
    have hrc : reasoningCapture block = none := by
      apply reasoningCapture_none
      intro j hj
      have hij : i ≤ j := firstOcc_min reasoningMarker block i hfo j hj
      rw [List.drop_drop]
      apply firstOcc_none_of_all
      intro k
      rw [List.drop_drop]
      obtain ⟨m, hm⟩ : ∃ m, j + 10 + k = i + 10 + m := ⟨j + 10 + k - (i + 10), by omega⟩
      rw [hm]
      have hx := firstOcc_none_all variantMarker (block.drop (i + 10)) hno m
      rwa [List.drop_drop] at hx
    rw [hpe]
    simp [hrc]

/-- Witness for C10: a pair whose block has its `Variant:` line before
the first `Reasoning:` occurrence, so the reasoning comes out empty. -/
theorem C10_witness :
    ((⟨[], "v".data⟩ : RawVariant) ∈
      parse_variants "====\nVariant: v\nReasoning: why\n====".data) ∧
    (⟨[], "v".data⟩ : RawVariant).variant ≠ [] ∧
    (⟨[], "v".data⟩ : RawVariant).reasoning = [] :=
  ⟨by decide,
   (C10_claim "====\nVariant: v\nReasoning: why\n====".data ⟨[], "v".data⟩
     (by decide)).1.1,
   (C10_claim "====\nVariant: v\nReasoning: why\n====".data ⟨[], "v".data⟩
     (by decide)).2 "Variant: v\nReasoning: why\n".data 11
     (by decide) (by decide) (by decide) (by decide)⟩
